import Mathlib

/-!
# fluxdb key codec (`fluxdb/utils.go`)

A shallow embedding of the block-number and chunk-key codec of
`fluxdb/utils.go`, together with the parts of the Go standard library it
calls (`fmt.Sprintf` with the verbs `%08x` / `%016x`, `strconv.ParseUint`,
`strconv.ParseInt`, `strings.HasPrefix`, `strings.Split`, `hex.DecodeString`,
`binary.BigEndian.Uint32`, string slicing, indexing and comparison).

Conventions:

* a Go `string` is a sequence of bytes, `len` counts bytes;
* `uint32` / `uint64` values are natural numbers, reduced `% 2^32` / `% 2^64`
  wherever the Go code converts or can wrap;
* a Go `(value, err)` result is a pair whose second component is `none`
  for `nil`;
* a function that may panic returns an `Option`, `none` standing for the panic.
-/

namespace Fluxdb

/-! ## Strings -/

/-- A byte of a Go string. -/
abbrev Byte := Fin 256

/-- A Go string: an immutable sequence of bytes. -/
abbrev GoString := List Byte

/-- The Go string holding the UTF-8 encoding of a literal. -/
def str (s : String) : GoString :=
  (s.toList.flatMap String.utf8EncodeChar).map (fun b => b.val)

/-- Go's `<` on strings: byte-wise lexicographic order, a proper prefix
being smaller. -/
def strLess : GoString → GoString → Bool
  | [], [] => false
  | [], _ :: _ => true
  | _ :: _, [] => false
  | a :: as, b :: bs => if a < b then true else if b < a then false else strLess as bs

/-- Go's slice expression `s[lo:hi]` on a string; out-of-range indices panic. -/
def slice (s : GoString) (lo hi : Nat) : Option GoString :=
  if lo ≤ hi ∧ hi ≤ s.length then some ((s.drop lo).take (hi - lo)) else none

/-- Go `strings.HasPrefix`: `len(s) >= len(prefix) && s[0:len(prefix)] == prefix`. -/
def HasPrefix (s pre : GoString) : Bool :=
  decide (s.length ≥ pre.length) && (s.take pre.length == pre)

/-! ## `fmt.Sprintf("%08x", v)` and `fmt.Sprintf("%016x", v)` -/

/-- The digit table of package `fmt`: `"0123456789abcdefx"`. -/
def ldigits : GoString :=
  [48, 49, 50, 51, 52, 53, 54, 55, 56, 57, 97, 98, 99, 100, 101, 102, 120]

/-- The lookup `digits[i]`. -/
def digitAt (i : Nat) : Byte := ldigits.getD i 0

/-- The base-16 loop of `fmt.fmtInteger`, writing right to left:
`for u >= 16 { i--; buf[i] = digits[u&0xF]; u >>= 4 }; i--; buf[i] = digits[u]`.
The first argument bounds the number of iterations; the argument of
`fmtInteger` is a `uint64`, which has at most 16 hexadecimal digits. -/
def fmtHexLoop : Nat → Nat → GoString → GoString
  | 0, _, acc => acc
  | fuel + 1, u, acc =>
    if u ≥ 16 then fmtHexLoop fuel (u / 16) (digitAt (u % 16) :: acc)
    else digitAt u :: acc

/-- The unsigned base-16 case of `fmt.fmtInteger` under the flags of `%0Nx`:
the zero flag with a width sets `prec = wid`, the digits are written right to
left and zeros are added on the left while fewer than `prec` bytes are
written (`for i > 0 && prec > len(buf)-i`).  The later call of `pad` adds
nothing, the text being at least `wid` bytes wide. -/
def fmtInteger16 (u : Nat) (wid : Nat) : GoString :=
  let ds := fmtHexLoop 16 (u % 2 ^ 64) []
  List.replicate (wid - ds.length) 48 ++ ds

/-! ## The encoders of `utils.go` -/

/-- The constant `math.MaxUint32`. -/
def MaxUint32 : Nat := 4294967295

/-- Subtraction of `uint32` values, wrapping modulo `2^32`. -/
def subU32 (a b : Nat) : Nat := (a % 2 ^ 32 + 2 ^ 32 - b % 2 ^ 32) % 2 ^ 32

/-- Go `HexBlockNum`: `fmt.Sprintf("%08x", blockNum)` with `blockNum uint32`. -/
def HexBlockNum (blockNum : Nat) : GoString :=
  fmtInteger16 (blockNum % 2 ^ 32) 8

/-- Go `HexRevBlockNum`: `HexBlockNum(math.MaxUint32 - blockNum)`. -/
def HexRevBlockNum (blockNum : Nat) : GoString :=
  HexBlockNum (subU32 MaxUint32 blockNum)

/-- Go `HexName`: `fmt.Sprintf("%016x", name)` with `name uint64`. -/
def HexName (name : Nat) : GoString :=
  fmtInteger16 (name % 2 ^ 64) 16

/-! ## `strconv.ParseUint(s, 16, bitSize)` and `strconv.ParseInt(s, 16, bitSize)` -/

/-- The `Err` field of a `*strconv.NumError`. -/
inductive NumError where
  | errSyntax : NumError
  | errRange : NumError
  deriving DecidableEq, Repr

/-- Go `lower(c)` of package `strconv`: `c | ('x' - 'X')`. -/
def lower (c : Byte) : Byte := c ||| 32

/-- The digit switch of the `ParseUint` loop: the value `d` of the byte, or
`none` for the `default` branch (a syntax error). -/
def digitVal (c : Byte) : Option Nat :=
  if 48 ≤ c ∧ c ≤ 57 then some (c.val - 48)
  else if 97 ≤ lower c ∧ lower c ≤ 122 then some ((lower c).val - 97 + 10)
  else none

/-- The loop of `strconv.ParseUint` for base 16 (`cutoff = maxUint64/16 + 1`),
from the accumulator `n`. -/
def parseUintLoop (maxVal : Nat) : GoString → Nat → Nat × Option NumError
  | [], n => (n, none)
  | c :: cs, n =>
    match digitVal c with
    | none => (0, some NumError.errSyntax)
    | some d =>
      if d ≥ 16 then (0, some NumError.errSyntax)
      else if n ≥ (2 ^ 64 - 1) / 16 + 1 then (maxVal, some NumError.errRange)
      else
        let n16 := (n * 16) % 2 ^ 64
        let n1 := (n16 + d) % 2 ^ 64
        if n1 < n16 ∨ n1 > maxVal then (maxVal, some NumError.errRange)
        else parseUintLoop maxVal cs n1

/-- Go `strconv.ParseUint(s, 16, bitSize)` for `1 ≤ bitSize ≤ 64`:
the empty string is a syntax error, `maxVal = 1<<bitSize - 1` in `uint64`. -/
def ParseUint16 (s : GoString) (bitSize : Nat) : Nat × Option NumError :=
  if s = [] then (0, some NumError.errSyntax)
  else parseUintLoop ((2 ^ bitSize % 2 ^ 64 + 2 ^ 64 - 1) % 2 ^ 64) s 0

/-- Go `strconv.ParseInt(s, 16, bitSize)` for `1 ≤ bitSize ≤ 64`: an optional
sign, the unsigned parse of the rest, and the range check against
`cutoff = 1 << (bitSize-1)`.  The result is an `int64`. -/
def ParseInt16 (s : GoString) (bitSize : Nat) : Int × Option NumError :=
  match s with
  | [] => (0, some NumError.errSyntax)
  | c :: rest =>
    let neg := decide (c = 45)
    let s1 := if c = 43 then rest else if c = 45 then rest else s
    let (un, err) := ParseUint16 s1 bitSize
    if err = some NumError.errSyntax then (0, err)
    else
      let cutoff := 2 ^ (bitSize - 1)
      if !neg && decide (un ≥ cutoff) then ((cutoff : Int) - 1, some NumError.errRange)
      else if neg && decide (un > cutoff) then (-(cutoff : Int), some NumError.errRange)
      else (if neg then -(un : Int) else (un : Int), none)

/-! ## The decoders of `utils.go` -/

/-- Go `hexToBlockNum`: `strconv.ParseInt(blockNumHex, 16, 32)`, a panic on any
error, else the conversion `uint32(value)`.  `none` is the panic. -/
def hexToBlockNum (blockNumHex : GoString) : Option Nat :=
  match ParseInt16 blockNumHex 32 with
  | (value, none) => some (value % 2 ^ 32).toNat
  | (_, some _) => none

/-- Go `BlockNumHexRev`: `math.MaxUint32 - hexToBlockNum(revBlockNumKey)`. -/
def BlockNumHexRev (revBlockNumKey : GoString) : Option Nat :=
  (hexToBlockNum revBlockNumKey).map (fun v => subU32 MaxUint32 v)

/-- The errors returned by the chunk-key parsers. -/
inductive KeyError where
  /-- message `key %s should start with prefix key %s` -/
  | noPrefix : KeyError
  /-- message `key %s is too small too contains block num, ...` -/
  | tooSmall : KeyError
  /-- message `revBlockNum %s should have a length of 8` -/
  | windowLength : KeyError
  /-- message `block chunk should have length of 8` -/
  | chunkLength : KeyError
  /-- the error of `strconv.ParseUint`, returned unchanged -/
  | num : NumError → KeyError
  deriving DecidableEq, Repr

/-- Go `chunkKeyBlockNum`.  The outer `Option` is `none` when the slice
expression `key[len(prefixKey) : len(prefixKey)+8]` panics. -/
def chunkKeyBlockNum (key prefixKey : GoString) : Option (Nat × Option KeyError) :=
  if !HasPrefix key prefixKey then some (0, some KeyError.noPrefix)
  else if key.length < prefixKey.length + 8 then some (0, some KeyError.tooSmall)
  else
    match slice key prefixKey.length (prefixKey.length + 8) with
    | none => none
    | some revBlockNum =>
      if revBlockNum.length ≠ 8 then some (0, some KeyError.windowLength)
      else
        match ParseUint16 revBlockNum 32 with
        | (_, some e) => some (0, some (KeyError.num e))
        | (val, none) => some (val % 2 ^ 32, none)

/-- Go `chunkKeyRevBlockNum`: the block number out of a reverse-encoded one. -/
def chunkKeyRevBlockNum (key prefixKey : GoString) : Option (Nat × Option KeyError) :=
  match chunkKeyBlockNum key prefixKey with
  | none => none
  | some (_, some err) => some (0, some err)
  | some (blockNum, none) => some (subU32 MaxUint32 (blockNum % 2 ^ 32), none)

/-- Go `KeyChunkToBlockNum`. -/
def KeyChunkToBlockNum (chunk : GoString) : Nat × Option KeyError :=
  if chunk.length ≠ 8 then (0, some KeyError.chunkLength)
  else
    match ParseUint16 chunk 32 with
    | (_, some e) => (0, some (KeyError.num e))
    | (val, none) => (val % 2 ^ 32, none)

/-! ## `encoding/hex`, `encoding/binary` and `BlockNum` -/

/-- The errors of `hex.Decode`: `InvalidByteError` and `ErrLength`. -/
inductive HexError where
  | invalidByte : Byte → HexError
  | errLength : HexError
  deriving DecidableEq, Repr

/-- Go `fromHexChar` of `encoding/hex`: the value of a hexadecimal digit, or
`none` for the result `(0, false)`. -/
def fromHexChar (c : Byte) : Option Nat :=
  if 48 ≤ c ∧ c ≤ 57 then some (c.val - 48)
  else if 97 ≤ c ∧ c ≤ 102 then some (c.val - 97 + 10)
  else if 65 ≤ c ∧ c ≤ 70 then some (c.val - 65 + 10)
  else none

/-- Go `hex.DecodeString`: two digits make the byte `(a << 4) | b`; the first
byte that is no digit stops the decoding with `InvalidByteError`, and a lone
last digit gives `ErrLength`.  The result is the bytes decoded so far and the
error. -/
def DecodeString : GoString → List Nat × Option HexError
  | [] => ([], none)
  | [c] =>
    match fromHexChar c with
    | none => ([], some (HexError.invalidByte c))
    | some _ => ([], some HexError.errLength)
  | c1 :: c2 :: rest =>
    match fromHexChar c1 with
    | none => ([], some (HexError.invalidByte c1))
    | some a =>
      match fromHexChar c2 with
      | none => ([], some (HexError.invalidByte c2))
      | some b =>
        let r := DecodeString rest
        ((((a <<< 4) % 256) ||| b) :: r.1, r.2)

/-- Go `binary.BigEndian.Uint32`:
`uint32(b[3]) | uint32(b[2])<<8 | uint32(b[1])<<16 | uint32(b[0])<<24`, a panic
(`none`) when `b` has fewer than 4 bytes. -/
def bigEndianUint32 (b : List Nat) : Option Nat :=
  match b with
  | b0 :: b1 :: b2 :: b3 :: _ =>
    some ((b3 ||| ((b2 <<< 8) % 2 ^ 32) ||| ((b1 <<< 16) % 2 ^ 32) ||| ((b0 <<< 24) % 2 ^ 32))
      % 2 ^ 32)
  | _ => none

/-- Go `BlockNum`: 0 for an input shorter than 8 bytes, else the big-endian
value of the 4 bytes that `blockID[:8]` hex-decodes to; a decoding error
panics (`none`). -/
def BlockNum (blockID : GoString) : Option Nat :=
  if blockID.length < 8 then some 0
  else
    match slice blockID 0 8 with
    | none => none
    | some head =>
      match DecodeString head with
      | (_, some _) => none
      | (bin, none) => bigEndianUint32 bin

/-! ## `strings.Split(key, ":")` and `chunkKeyUint64` -/

/-- The step `m := Index(s, ":")`, `s[:m]`, `s[m+1:]` of `strings.genSplit`:
the text before the first colon and the text after it, `none` when `s` has
no colon. -/
def cutColon : GoString → Option (GoString × GoString)
  | [] => none
  | c :: cs =>
    if c = 58 then some ([], cs)
    else
      match cutColon cs with
      | none => none
      | some (a, rest) => some (c :: a, rest)

/-- The loop of `strings.genSplit`, `n` counting the cuts still allowed:
`for i < n { m := Index(s, sep); if m < 0 { break }; a[i] = s[:m]; s = s[m+1:] }`
and then `a[i] = s`. -/
def genSplitLoop : Nat → GoString → List GoString
  | 0, s => [s]
  | n + 1, s =>
    match cutColon s with
    | none => [s]
    | some (a, rest) => a :: genSplitLoop n rest

/-- Go `strings.Split(s, ":")`: `genSplit` with `n = Count(s, ":") + 1`
substrings, hence `Count(s, ":")` cuts. -/
def Split (s : GoString) : List GoString :=
  genSplitLoop (s.count 58) s

/-- Go index expression `a[i]` with `i` of type `int`: a panic (`none`) when
`i` is negative or not below `len(a)`. -/
def indexAt {α : Type} (a : List α) (i : Int) : Option α :=
  if 0 ≤ i ∧ i < a.length then a.get? i.toNat else none

/-- Go `chunkKeyUint64`.  The outer `Option` is `none` when the index
expression `chunks[chunkIndex]` panics. -/
def chunkKeyUint64 (key : GoString) (chunkIndex : Int) : Option (Nat × Bool) :=
  let chunks := Split key
  if chunkIndex ≥ chunks.length then some (0, false)
  else
    match indexAt chunks chunkIndex with
    | none => none
    | some val =>
      if val.length ≠ 16 then some (0, false)
      else
        match ParseUint16 val 64 with
        | (_, some _) => some (0, false)
        | (value, none) => some (value, true)

/-! ## Vocabulary of the specification -/

/-- A hexadecimal digit: `0-9`, `a-f` or `A-F`. -/
def isHexDigit (c : Byte) : Prop :=
  (48 ≤ c ∧ c ≤ 57) ∨ (97 ≤ c ∧ c ≤ 102) ∨ (65 ≤ c ∧ c ≤ 70)

instance (c : Byte) : Decidable (isHexDigit c) := by
  unfold isHexDigit; infer_instance

/-- A lowercase hexadecimal digit: `0-9` or `a-f`. -/
def isLowerHexDigit (c : Byte) : Prop :=
  (48 ≤ c ∧ c ≤ 57) ∨ (97 ≤ c ∧ c ≤ 102)

instance (c : Byte) : Decidable (isLowerHexDigit c) := by
  unfold isLowerHexDigit; infer_instance

/-- The value of a hexadecimal digit (0 for any other byte). -/
def hexDigitValue (c : Byte) : Nat :=
  if 48 ≤ c ∧ c ≤ 57 then c.val - 48
  else if 97 ≤ c ∧ c ≤ 102 then c.val - 87
  else if 65 ≤ c ∧ c ≤ 70 then c.val - 55
  else 0

/-- The digits of `s` read after the digits of the numeral `n`. -/
def base16From (n : Nat) (s : GoString) : Nat :=
  s.foldl (fun acc c => acc * 16 + hexDigitValue c) n

/-- A string read as a big-endian base-16 numeral. -/
def base16Value (s : GoString) : Nat := base16From 0 s

/-- The 8 bytes that follow the first `len(prefixKey)` bytes of `key`. -/
def keyWindow (key prefixKey : GoString) : GoString :=
  (key.drop prefixKey.length).take 8

/-- A malformed key: it does not start with the prefix, or fewer than 8 bytes
follow the prefix, or the 8 bytes following the prefix are not all
hexadecimal digits. -/
def malformedKey (key prefixKey : GoString) : Prop :=
  ¬ prefixKey <+: key ∨ key.length < prefixKey.length + 8 ∨
    ¬ ∀ c ∈ keyWindow key prefixKey, isHexDigit c

instance (key prefixKey : GoString) : Decidable (malformedKey key prefixKey) := by
  unfold malformedKey; infer_instance

/-- The fields joined by single colons: `f_0 ++ ":" ++ ... ++ ":" ++ f_n`. -/
def joinColon : List GoString → GoString
  | [] => []
  | [f] => f
  | f :: g :: fs => f ++ 58 :: joinColon (g :: fs)

/-- A field without a colon. -/
def colonFree (f : GoString) : Prop := ∀ c ∈ f, c ≠ 58

instance (f : GoString) : Decidable (colonFree f) := by
  unfold colonFree; infer_instance

/-- The call returned (no panic) with a non-nil error. -/
def failed (r : Option (Nat × Option KeyError)) : Prop :=
  ∃ v e, r = some (v, some e)

/-- The `w` low hexadecimal digits of `u`, most significant first, written
with the digit table of `fmt`. -/
def hexFixed : Nat → Nat → GoString
  | 0, _ => []
  | w + 1, u => hexFixed w (u / 16) ++ [digitAt (u % 16)]

/-! ## Digits -/

set_option maxRecDepth 100000 in
theorem digitVal_hex (c : Byte) (h : isHexDigit c) :
    digitVal c = some (hexDigitValue c) ∧ hexDigitValue c < 16 := by
  revert c; decide

set_option maxRecDepth 100000 in
theorem digitVal_not_hex (c : Byte) (h : ¬ isHexDigit c) :
    digitVal c = none ∨ ∃ d, digitVal c = some d ∧ 16 ≤ d := by
  revert c; decide

theorem digitAt_spec : ∀ d, d < 16 →
    isLowerHexDigit (digitAt d) ∧ hexDigitValue (digitAt d) = d := by
  decide

theorem digitAt_lt_iff : ∀ i, i < 16 → ∀ j, j < 16 → (digitAt i < digitAt j ↔ i < j) := by
  decide

theorem digitAt_zero : digitAt 0 = 48 := rfl

theorem isHexDigit_of_lower (c : Byte) (h : isLowerHexDigit c) : isHexDigit c := by
  unfold isLowerHexDigit at h; unfold isHexDigit
  rcases h with h | h
  · exact Or.inl h
  · exact Or.inr (Or.inl h)

/-! ## Fixed-width digits and `fmtInteger16` -/

theorem hexFixed_length (w u : Nat) : (hexFixed w u).length = w := by
  induction w generalizing u with
  | zero => rfl
  | succ w ih => simp [hexFixed, ih]

theorem hexFixed_zero (w : Nat) : hexFixed w 0 = List.replicate w 48 := by
  induction w with
  | zero => rfl
  | succ w ih =>
    simp only [hexFixed, Nat.zero_div, Nat.zero_mod, ih, digitAt_zero]
    exact (List.replicate_succ' w (48 : Byte)).symm

theorem hexFixed_small (w u : Nat) (hu : u < 16) :
    hexFixed (w + 1) u = List.replicate w 48 ++ [digitAt u] := by
  have h0 : u / 16 = 0 := Nat.div_eq_of_lt hu
  simp [hexFixed, h0, hexFixed_zero, Nat.mod_eq_of_lt hu]

theorem fmtHexLoop_acc (fuel u : Nat) (acc : GoString) :
    fmtHexLoop fuel u acc = fmtHexLoop fuel u [] ++ acc := by
  induction fuel generalizing u acc with
  | zero => simp [fmtHexLoop]
  | succ fuel ih =>
    simp only [fmtHexLoop]
    split
    · rw [ih (u / 16) (digitAt (u % 16) :: acc), ih (u / 16) [digitAt (u % 16)]]
      simp
    · simp

/-- With enough iterations the loop writes at most `k` digits, and padding
them with zeros to any width `w ≥ k` gives the `w` fixed-width digits. -/
theorem fmtHexLoop_pad (k : Nat) : ∀ fuel u, u < 16 ^ (k + 1) → k + 1 ≤ fuel →
    (fmtHexLoop fuel u []).length ≤ k + 1 ∧
    ∀ w, (fmtHexLoop fuel u []).length ≤ w →
      List.replicate (w - (fmtHexLoop fuel u []).length) 48 ++ fmtHexLoop fuel u []
        = hexFixed w u := by
  induction k with
  | zero =>
    intro fuel u hu hf
    obtain ⟨f, rfl⟩ : ∃ f, fuel = f + 1 := ⟨fuel - 1, by omega⟩
    have hu16 : ¬ u ≥ 16 := by simpa using hu
    simp only [fmtHexLoop, if_neg hu16, List.length_singleton]
    refine ⟨by omega, fun w hw => ?_⟩
    obtain ⟨v, rfl⟩ : ∃ v, w = v + 1 := ⟨w - 1, by omega⟩
    rw [hexFixed_small v u (by omega)]
    simp
  | succ k ih =>
    intro fuel u hu hf
    obtain ⟨f, rfl⟩ : ∃ f, fuel = f + 1 := ⟨fuel - 1, by omega⟩
    by_cases hu16 : u ≥ 16
    · have hdiv : u / 16 < 16 ^ (k + 1) := by
        rw [Nat.div_lt_iff_lt_mul (by norm_num)]
        calc u < 16 ^ (k + 1 + 1) := hu
          _ = 16 ^ (k + 1) * 16 := by ring
      obtain ⟨hlen, hpad⟩ := ih f (u / 16) hdiv (by omega)
      simp only [fmtHexLoop, if_pos hu16]
      rw [fmtHexLoop_acc]
      simp only [List.length_append, List.length_singleton]
      refine ⟨by omega, fun w hw => ?_⟩
      obtain ⟨v, rfl⟩ : ∃ v, w = v + 1 := ⟨w - 1, by omega⟩
      have := hpad v (by omega)
      simp only [hexFixed]
      rw [← this, List.append_assoc]
      congr 2
      omega
    · have hu' : u < 16 := by omega
      simp only [fmtHexLoop, if_neg hu16, List.length_singleton]
      refine ⟨by omega, fun w hw => ?_⟩
      obtain ⟨v, rfl⟩ : ∃ v, w = v + 1 := ⟨w - 1, by omega⟩
      rw [hexFixed_small v u hu']
      simp

theorem fmtInteger16_eq (u w : Nat) (hw1 : 1 ≤ w) (hw : w ≤ 16) (hu : u < 16 ^ w) :
    fmtInteger16 u w = hexFixed w u := by
  obtain ⟨k, rfl⟩ : ∃ k, w = k + 1 := ⟨w - 1, by omega⟩
  have h64 : u % 2 ^ 64 = u := by
    apply Nat.mod_eq_of_lt
    calc u < 16 ^ (k + 1) := hu
      _ ≤ 16 ^ 16 := Nat.pow_le_pow_right (by norm_num) hw
      _ = 2 ^ 64 := by norm_num
  obtain ⟨hlen, hpad⟩ := fmtHexLoop_pad k 16 u hu hw
  simp only [fmtInteger16, h64]
  exact hpad (k + 1) hlen

theorem HexBlockNum_eq (h : Nat) (hh : h < 2 ^ 32) : HexBlockNum h = hexFixed 8 h := by
  unfold HexBlockNum
  rw [Nat.mod_eq_of_lt hh]
  exact fmtInteger16_eq h 8 (by norm_num) (by norm_num) (by simpa using hh)

theorem hexFixed_lowerHex (w u : Nat) : ∀ c ∈ hexFixed w u, isLowerHexDigit c := by
  induction w generalizing u with
  | zero => intro c hc; simp [hexFixed] at hc
  | succ w ih =>
    intro c hc
    simp only [hexFixed, List.mem_append, List.mem_singleton] at hc
    rcases hc with hc | rfl
    · exact ih (u / 16) c hc
    · exact (digitAt_spec (u % 16) (Nat.mod_lt _ (by norm_num))).1

/-! ## Reading base-16 numerals -/

theorem base16Value_eq (s : GoString) : base16Value s = base16From 0 s := rfl

theorem base16From_cons (n : Nat) (c : Byte) (cs : GoString) :
    base16From n (c :: cs) = base16From (n * 16 + hexDigitValue c) cs := rfl

theorem base16From_snoc (n : Nat) (cs : GoString) (c : Byte) :
    base16From n (cs ++ [c]) = base16From n cs * 16 + hexDigitValue c := by
  simp [base16From, List.foldl_append]

theorem hexDigitValue_lt (c : Byte) : hexDigitValue c < 16 := by
  unfold hexDigitValue
  split
  · next h => have := h.2; have : c.val ≤ 57 := this; omega
  · split
    · next h => have := h.2; have : c.val ≤ 102 := this; omega
    · split
      · next h => have := h.2; have : c.val ≤ 70 := this; omega
      · omega

theorem base16From_ge (cs : GoString) : ∀ n, n * 16 ^ cs.length ≤ base16From n cs := by
  induction cs with
  | nil => intro n; simp [base16From]
  | cons c cs ih =>
    intro n
    rw [base16From_cons]
    calc n * 16 ^ (c :: cs).length = (n * 16) * 16 ^ cs.length := by
          simp only [List.length_cons]; ring
      _ ≤ (n * 16 + hexDigitValue c) * 16 ^ cs.length :=
          Nat.mul_le_mul_right _ (Nat.le_add_right _ _)
      _ ≤ base16From (n * 16 + hexDigitValue c) cs := ih _

theorem base16From_lt (cs : GoString) : ∀ n, base16From n cs < (n + 1) * 16 ^ cs.length := by
  induction cs with
  | nil => intro n; simp [base16From]
  | cons c cs ih =>
    intro n
    rw [base16From_cons]
    have hd := hexDigitValue_lt c
    calc base16From (n * 16 + hexDigitValue c) cs
        < (n * 16 + hexDigitValue c + 1) * 16 ^ cs.length := ih _
      _ ≤ ((n + 1) * 16) * 16 ^ cs.length := Nat.mul_le_mul_right _ (by omega)
      _ = (n + 1) * 16 ^ (c :: cs).length := by simp only [List.length_cons]; ring

theorem base16From_hexFixed (w : Nat) : ∀ n u,
    base16From n (hexFixed w u) = n * 16 ^ w + u % 16 ^ w := by
  induction w with
  | zero => intro n u; simp [hexFixed, base16From, Nat.mod_one]
  | succ w ih =>
    intro n u
    simp only [hexFixed]
    rw [base16From_snoc, ih, (digitAt_spec (u % 16) (Nat.mod_lt _ (by norm_num))).2]
    have h : u % 16 ^ (w + 1) = u % 16 + 16 * (u / 16 % 16 ^ w) := by
      rw [pow_succ, Nat.mul_comm (16 ^ w) 16, Nat.mod_mul]
    rw [h, pow_succ]
    ring

theorem base16Value_hexFixed (w u : Nat) (hu : u < 16 ^ w) :
    base16Value (hexFixed w u) = u := by
  rw [base16Value_eq, base16From_hexFixed, Nat.mod_eq_of_lt hu]; simp

theorem hexFixed_inj (w a b : Nat) (ha : a < 16 ^ w) (hb : b < 16 ^ w)
    (h : hexFixed w a = hexFixed w b) : a = b := by
  have := congrArg base16Value h
  rwa [base16Value_hexFixed w a ha, base16Value_hexFixed w b hb] at this

/-! ## The `ParseUint` loop -/

theorem parseUintLoop_hex (maxVal : Nat) (hmax : maxVal < 2 ^ 64) (cs : GoString) :
    ∀ n, (∀ c ∈ cs, isHexDigit c) → base16From n cs ≤ maxVal →
      parseUintLoop maxVal cs n = (base16From n cs, none) := by
  induction cs with
  | nil => intro n _ _; rfl
  | cons c cs ih =>
    intro n hall hle
    have hc := digitVal_hex c (hall c (List.mem_cons_self _ _))
    have hrest : ∀ x ∈ cs, isHexDigit x := fun x hx => hall x (List.mem_cons_of_mem _ hx)
    rw [base16From_cons] at hle
    have hge := base16From_ge cs (n * 16 + hexDigitValue c)
    have hpos : 1 ≤ 16 ^ cs.length := Nat.one_le_pow _ _ (by norm_num)
    have hn' : n * 16 + hexDigitValue c ≤ maxVal :=
      le_trans (le_trans (Nat.le_mul_of_pos_right _ hpos) hge) hle
    have hd := hc.2
    have h1 : ¬ hexDigitValue c ≥ 16 := by omega
    have h2 : ¬ n ≥ (2 ^ 64 - 1) / 16 + 1 := by
      have : (2 ^ 64 - 1) / 16 + 1 = 1152921504606846976 := by norm_num
      rw [this]; omega
    have h3 : n * 16 % 2 ^ 64 = n * 16 := Nat.mod_eq_of_lt (by omega)
    have h4 : (n * 16 + hexDigitValue c) % 2 ^ 64 = n * 16 + hexDigitValue c :=
      Nat.mod_eq_of_lt (by omega)
    have h5 : ¬ (n * 16 + hexDigitValue c < n * 16 ∨ n * 16 + hexDigitValue c > maxVal) := by
      omega
    simp only [parseUintLoop, hc.1, if_neg h1, if_neg h2, h3, h4, if_neg h5]
    rw [ih _ hrest hle, base16From_cons]

theorem parseUintLoop_not_hex (maxVal : Nat) (cs : GoString) :
    ∀ n, (∃ c ∈ cs, ¬ isHexDigit c) → (parseUintLoop maxVal cs n).2 ≠ none := by
  induction cs with
  | nil => intro n h; obtain ⟨c, hc, _⟩ := h; simp at hc
  | cons c cs ih =>
    intro n h
    simp only [parseUintLoop]
    cases hdv : digitVal c with
    | none => simp
    | some d =>
      simp only
      split
      · simp
      · next hd16 =>
        split
        · simp
        · split
          · simp
          · apply ih
            obtain ⟨x, hx, hxn⟩ := h
            rcases List.mem_cons.mp hx with rfl | hx
            · exfalso
              rcases digitVal_not_hex x hxn with h0 | ⟨d', hd', hge⟩
              · rw [h0] at hdv; cases hdv
              · rw [hd'] at hdv; cases hdv; omega
            · exact ⟨x, hx, hxn⟩

theorem maxVal32 : (2 ^ 32 % 2 ^ 64 + 2 ^ 64 - 1) % 2 ^ 64 = 4294967295 := by norm_num

/-- On an 8-byte string of hexadecimal digits `ParseUint(s, 16, 32)` returns
its base-16 value, which fits 32 bits. -/
theorem ParseUint16_hex8 (s : GoString) (hlen : s.length = 8)
    (hall : ∀ c ∈ s, isHexDigit c) :
    ParseUint16 s 32 = (base16Value s, none) ∧ base16Value s < 2 ^ 32 := by
  have hlt := base16From_lt s 0
  rw [hlen] at hlt
  have hv : base16Value s < 2 ^ 32 := by
    rw [base16Value_eq]; norm_num at hlt ⊢; exact hlt
  refine ⟨?_, hv⟩
  have hne : s ≠ [] := by intro h; rw [h] at hlen; simp at hlen
  unfold ParseUint16
  rw [if_neg hne, maxVal32]
  exact parseUintLoop_hex 4294967295 (by norm_num) s 0 hall (by
    rw [← base16Value_eq]; norm_num at hv; omega)

/-- A string with a byte that is no hexadecimal digit makes `ParseUint` fail. -/
theorem ParseUint16_not_hex (s : GoString) (bitSize : Nat)
    (h : ∃ c ∈ s, ¬ isHexDigit c) : (ParseUint16 s bitSize).2 ≠ none := by
  unfold ParseUint16
  split
  · simp
  · exact parseUintLoop_not_hex _ s 0 h

/-! ## The chunk-key parsers -/

theorem HasPrefix_iff (key pre : GoString) : HasPrefix key pre = true ↔ pre <+: key := by
  unfold HasPrefix
  rw [Bool.and_eq_true, decide_eq_true_iff, beq_iff_eq]
  constructor
  · rintro ⟨_, h⟩
    exact List.prefix_iff_eq_take.mpr h.symm
  · intro h
    exact ⟨h.length_le, (List.prefix_iff_eq_take.mp h).symm⟩

theorem slice_window (key prefixKey : GoString) (h : prefixKey.length + 8 ≤ key.length) :
    slice key prefixKey.length (prefixKey.length + 8) = some (keyWindow key prefixKey) ∧
    (keyWindow key prefixKey).length = 8 := by
  unfold slice keyWindow
  have h1 : prefixKey.length ≤ prefixKey.length + 8 ∧ prefixKey.length + 8 ≤ key.length :=
    ⟨by omega, h⟩
  rw [if_pos h1]
  refine ⟨by simp, ?_⟩
  rw [List.length_take, List.length_drop]
  omega

/-- The three outcomes of `chunkKeyBlockNum`, by the shape of the key. -/
theorem chunkKeyBlockNum_cases (key prefixKey : GoString) :
    (malformedKey key prefixKey ∧ ∃ e, chunkKeyBlockNum key prefixKey = some (0, some e)) ∨
    (¬ malformedKey key prefixKey ∧ base16Value (keyWindow key prefixKey) < 2 ^ 32 ∧
      chunkKeyBlockNum key prefixKey = some (base16Value (keyWindow key prefixKey), none)) := by
  unfold chunkKeyBlockNum malformedKey
  by_cases hp : prefixKey <+: key
  · have hP : HasPrefix key prefixKey = true := (HasPrefix_iff _ _).mpr hp
    by_cases hl : key.length < prefixKey.length + 8
    · left
      refine ⟨Or.inr (Or.inl hl), KeyError.tooSmall, ?_⟩
      simp [hP, hl]
    · obtain ⟨hs, hlen⟩ := slice_window key prefixKey (by omega)
      simp only [hP, Bool.not_true, Bool.false_eq_true, if_false, if_neg hl, hs]
      rw [if_neg (by simp [hlen])]
      by_cases hall : ∀ c ∈ keyWindow key prefixKey, isHexDigit c
      · right
        obtain ⟨hpu, hv⟩ := ParseUint16_hex8 _ hlen hall
        refine ⟨by tauto, hv, ?_⟩
        rw [hpu]
        simp only
        rw [Nat.mod_eq_of_lt hv]
      · left
        refine ⟨Or.inr (Or.inr hall), ?_⟩
        have hbad : ∃ c ∈ keyWindow key prefixKey, ¬ isHexDigit c := by
          push_neg at hall; exact hall
        have herr := ParseUint16_not_hex _ 32 hbad
        rcases hpu : ParseUint16 (keyWindow key prefixKey) 32 with ⟨v, _ | e⟩
        · rw [hpu] at herr; exact absurd rfl herr
        · exact ⟨KeyError.num e, rfl⟩
  · left
    have hP : HasPrefix key prefixKey = false := by
      rw [← Bool.not_eq_true, HasPrefix_iff]; exact hp
    refine ⟨Or.inl hp, KeyError.noPrefix, ?_⟩
    simp [hP]

theorem keyWindow_append (p w s : GoString) (hw : w.length = 8) :
    keyWindow (p ++ w ++ s) p = w := by
  unfold keyWindow
  rw [List.append_assoc, List.drop_left, ← hw, List.take_left]

theorem chunkKeyBlockNum_append (p w s : GoString) (hw : w.length = 8)
    (hall : ∀ c ∈ w, isHexDigit c) :
    chunkKeyBlockNum (p ++ w ++ s) p = some (base16Value w, none) := by
  rcases chunkKeyBlockNum_cases (p ++ w ++ s) p with ⟨hm, _⟩ | ⟨_, _, h⟩
  · exfalso
    unfold malformedKey at hm
    rw [keyWindow_append p w s hw] at hm
    rcases hm with h | h | h
    · exact h ⟨w ++ s, by simp⟩
    · simp [hw] at h
    · exact h hall
  · rw [h, keyWindow_append p w s hw]

theorem subU32_max (v : Nat) (hv : v < 2 ^ 32) : subU32 MaxUint32 v = 4294967295 - v := by
  unfold subU32 MaxUint32
  rw [Nat.mod_eq_of_lt hv]
  norm_num at hv ⊢
  omega

/-! ## Order -/

theorem strLess_snoc (xs : GoString) : ∀ (ys : GoString) (c d : Byte),
    xs.length = ys.length →
    strLess (xs ++ [c]) (ys ++ [d]) = (strLess xs ys || (decide (xs = ys) && decide (c < d))) := by
  induction xs with
  | nil =>
    intro ys c d h
    cases ys with
    | nil =>
      by_cases hcd : c < d
      · simp [strLess, hcd]
      · simp [strLess, hcd]
    | cons y ys => simp at h
  | cons x xs ih =>
    intro ys c d h
    cases ys with
    | nil => simp at h
    | cons y ys =>
      have hl : xs.length = ys.length := by simpa using h
      simp only [List.cons_append, strLess]
      by_cases hxy : x < y
      · simp [hxy]
      · by_cases hyx : y < x
        · have hne : x ≠ y := fun e => by subst e; exact hxy hyx
          simp [hxy, hyx, hne]
        · have he : x = y := le_antisymm (not_lt.mp hyx) (not_lt.mp hxy)
          subst he
          simp [ih ys c d hl]

theorem strLess_hexFixed (w : Nat) : ∀ a b, a < 16 ^ w → b < 16 ^ w →
    (strLess (hexFixed w a) (hexFixed w b) = true ↔ a < b) := by
  induction w with
  | zero =>
    intro a b ha hb
    simp at ha hb
    subst ha; subst hb
    simp [hexFixed, strLess]
  | succ w ih =>
    intro a b ha hb
    have ha' : a / 16 < 16 ^ w := by
      rw [Nat.div_lt_iff_lt_mul (by norm_num)]; rw [pow_succ] at ha; exact ha
    have hb' : b / 16 < 16 ^ w := by
      rw [Nat.div_lt_iff_lt_mul (by norm_num)]; rw [pow_succ] at hb; exact hb
    simp only [hexFixed]
    rw [strLess_snoc _ _ _ _ (by rw [hexFixed_length, hexFixed_length])]
    rw [Bool.or_eq_true, Bool.and_eq_true, decide_eq_true_iff, decide_eq_true_iff,
      ih _ _ ha' hb',
      digitAt_lt_iff (a % 16) (Nat.mod_lt _ (by norm_num)) (b % 16) (Nat.mod_lt _ (by norm_num))]
    constructor
    · rintro (h | ⟨h1, h2⟩)
      · omega
      · have := hexFixed_inj w _ _ ha' hb' h1
        omega
    · intro h
      by_cases hq : a / 16 < b / 16
      · exact Or.inl hq
      · right
        have he : a / 16 = b / 16 := by omega
        exact ⟨by rw [he], by omega⟩

/-- The shape of an encoded block number: 8 lowercase hexadecimal digits
whose base-16 value is the block number. -/
theorem HexBlockNum_shape (h : Nat) (hh : h < 2 ^ 32) :
    (HexBlockNum h).length = 8 ∧
    (∀ c ∈ HexBlockNum h, isLowerHexDigit c) ∧
    base16Value (HexBlockNum h) = h := by
  rw [HexBlockNum_eq h hh]
  exact ⟨hexFixed_length 8 h, hexFixed_lowerHex 8 h,
    base16Value_hexFixed 8 h (by norm_num at hh ⊢; exact hh)⟩

/-! ## Claims -/

/-- Claim C1, at the input where the code departs from it: the block height
`2147483648` (`2^31`) is encoded as `"80000000"`, and `hexToBlockNum` panics on
that string instead of returning `2147483648`, its signed 32-bit parse
reporting a range error. -/
theorem hexToBlockNum_HexBlockNum_panics_at_2pow31 :
    HexBlockNum 2147483648 = str "80000000" ∧
    ParseInt16 (str "80000000") 32 = (2147483647, some NumError.errRange) ∧
    hexToBlockNum (HexBlockNum 2147483648) = none := by
  decide

/-- Claim C2, at the input where the code departs from it: the block height
`0` is reverse-encoded as `"ffffffff"`, and `BlockNumHexRev` panics on that
string instead of returning `0`. -/
theorem BlockNumHexRev_HexRevBlockNum_panics_at_zero :
    HexRevBlockNum 0 = str "ffffffff" ∧
    hexToBlockNum (str "ffffffff") = none ∧
    BlockNumHexRev (HexRevBlockNum 0) = none := by
  decide

/-- Claim C3: the reverse encoding inverts order. For block heights
`h1 < h2` of 32 bits, `HexRevBlockNum h1` is strictly greater than
`HexRevBlockNum h2` in the byte-lexicographic order of strings. -/
theorem HexRevBlockNum_inverts_order (h1 h2 : Nat) (hlt : h1 < h2) (hb : h2 < 2 ^ 32) :
    strLess (HexRevBlockNum h2) (HexRevBlockNum h1) = true := by
  have hb1 : h1 < 2 ^ 32 := by omega
  unfold HexRevBlockNum
  rw [subU32_max h1 hb1, subU32_max h2 hb]
  have e1 : 4294967295 - h1 < 2 ^ 32 := by norm_num; omega
  have e2 : 4294967295 - h2 < 2 ^ 32 := by norm_num; omega
  rw [HexBlockNum_eq _ e1, HexBlockNum_eq _ e2]
  rw [strLess_hexFixed 8 _ _ (by norm_num at e2 ⊢; omega) (by norm_num at e1 ⊢; omega)]
  norm_num at hb
  omega

theorem HexRevBlockNum_inverts_order_witness :
    (1 : Nat) < 2 ∧ (2 : Nat) < 2 ^ 32 ∧
    strLess (HexRevBlockNum 2) (HexRevBlockNum 1) = true :=
  ⟨by decide, by decide, HexRevBlockNum_inverts_order 1 2 (by decide) (by decide)⟩

/-- Claim C4: the forward encoding preserves order. For block heights `h1`,
`h2` of 32 bits, `h1 < h2` exactly when `HexBlockNum h1` is smaller than
`HexBlockNum h2` in the byte-lexicographic order of strings, and
`HexBlockNum` is injective. -/
theorem HexBlockNum_preserves_order (h1 h2 : Nat) (hb1 : h1 < 2 ^ 32) (hb2 : h2 < 2 ^ 32) :
    (h1 < h2 ↔ strLess (HexBlockNum h1) (HexBlockNum h2) = true) ∧
    (HexBlockNum h1 = HexBlockNum h2 → h1 = h2) := by
  rw [HexBlockNum_eq h1 hb1, HexBlockNum_eq h2 hb2]
  have e1 : h1 < 16 ^ 8 := by norm_num at hb1 ⊢; exact hb1
  have e2 : h2 < 16 ^ 8 := by norm_num at hb2 ⊢; exact hb2
  exact ⟨(strLess_hexFixed 8 h1 h2 e1 e2).symm, hexFixed_inj 8 h1 h2 e1 e2⟩

theorem HexBlockNum_preserves_order_witness :
    (9 : Nat) < 2 ^ 32 ∧ (10 : Nat) < 2 ^ 32 ∧
    (((9 : Nat) < 10 ↔ strLess (HexBlockNum 9) (HexBlockNum 10) = true) ∧
      (HexBlockNum 9 = HexBlockNum 10 → (9 : Nat) = 10)) :=
  ⟨by decide, by decide, HexBlockNum_preserves_order 9 10 (by decide) (by decide)⟩

/-- Claim C5: the format of an encoded block number. For a block height `h`
of 32 bits, `HexBlockNum h` has length 8, each of its bytes is one of `0-9`,
`a-f`, and read as a big-endian base-16 numeral it is `h`; `HexBlockNum 0` is
`"00000000"` and `HexBlockNum 4294967295` is `"ffffffff"`. -/
theorem HexBlockNum_format (h : Nat) (hh : h < 2 ^ 32) :
    (HexBlockNum h).length = 8 ∧
    (∀ c ∈ HexBlockNum h, isLowerHexDigit c) ∧
    base16Value (HexBlockNum h) = h ∧
    HexBlockNum 0 = str "00000000" ∧
    HexBlockNum 4294967295 = str "ffffffff" := by
  obtain ⟨hlen, hlow, hval⟩ := HexBlockNum_shape h hh
  exact ⟨hlen, hlow, hval, by decide, by decide⟩

theorem HexBlockNum_format_witness :
    (48879 : Nat) < 2 ^ 32 ∧ HexBlockNum 48879 = str "0000beef" ∧
    base16Value (HexBlockNum 48879) = 48879 :=
  ⟨by decide, by decide, (HexBlockNum_format 48879 (by decide)).2.2.1⟩

/-- Claim C6: the prefix parse recovers the written block number. For every
prefix `p`, block height `h` of 32 bits and suffix `s`,
`chunkKeyBlockNum (p ++ HexBlockNum h ++ s) p` returns `h` with no error;
`chunkKeyBlockNum "abc00000010" "abc"` returns `16` with no error. -/
theorem chunkKeyBlockNum_HexBlockNum (p s : GoString) (h : Nat) (hh : h < 2 ^ 32) :
    chunkKeyBlockNum (p ++ HexBlockNum h ++ s) p = some (h, none) ∧
    chunkKeyBlockNum (str "abc00000010") (str "abc") = some (16, none) := by
  refine ⟨?_, by decide⟩
  obtain ⟨hlen, hlow, hval⟩ := HexBlockNum_shape h hh
  rw [chunkKeyBlockNum_append p _ s hlen (fun c hc => isHexDigit_of_lower c (hlow c hc)), hval]

theorem chunkKeyBlockNum_HexBlockNum_witness :
    (255 : Nat) < 2 ^ 32 ∧
    chunkKeyBlockNum (str "ts:" ++ HexBlockNum 255 ++ str ":rest") (str "ts:")
      = some (255, none) :=
  ⟨by decide, (chunkKeyBlockNum_HexBlockNum (str "ts:") (str ":rest") 255 (by decide)).1⟩

/-- Claim C7: `chunkKeyBlockNum` fails exactly on malformed keys. For every
key and prefix it returns an error, with block number 0, exactly when the
key does not start with the prefix, or fewer than 8 bytes follow the prefix,
or the 8 bytes following the prefix are not all hexadecimal digits; in every
other case it returns the base-16 value of those 8 bytes with no error.
`chunkKeyBlockNum "xyz00000010" "abc"` is an error. -/
theorem chunkKeyBlockNum_fails_iff_malformed (key prefixKey : GoString) :
    ((∃ e, chunkKeyBlockNum key prefixKey = some (0, some e)) ↔ malformedKey key prefixKey) ∧
    (failed (chunkKeyBlockNum key prefixKey) ↔ malformedKey key prefixKey) ∧
    (¬ malformedKey key prefixKey →
      chunkKeyBlockNum key prefixKey = some (base16Value (keyWindow key prefixKey), none)) ∧
    (∃ e, chunkKeyBlockNum (str "xyz00000010") (str "abc") = some (0, some e)) := by
  refine ⟨?_, ?_, ?_, ⟨KeyError.noPrefix, by decide⟩⟩
  · rcases chunkKeyBlockNum_cases key prefixKey with ⟨hm, e, he⟩ | ⟨hm, _, h⟩
    · exact ⟨fun _ => hm, fun _ => ⟨e, he⟩⟩
    · constructor
      · rintro ⟨e, he⟩
        rw [h] at he
        simp at he
      · intro hm'
        exact absurd hm' hm
  · rcases chunkKeyBlockNum_cases key prefixKey with ⟨hm, e, he⟩ | ⟨hm, _, h⟩
    · exact ⟨fun _ => hm, fun _ => ⟨0, e, he⟩⟩
    · constructor
      · rintro ⟨v, e, he⟩
        rw [h] at he
        simp at he
      · intro hm'
        exact absurd hm' hm
  · intro hm
    rcases chunkKeyBlockNum_cases key prefixKey with ⟨hm', _⟩ | ⟨_, _, h⟩
    · exact absurd hm' hm
    · exact h

set_option maxRecDepth 100000 in
theorem chunkKeyBlockNum_fails_iff_malformed_witness :
    ¬ malformedKey (str "abc0000FFff:tail") (str "abc") ∧
    chunkKeyBlockNum (str "abc0000FFff:tail") (str "abc")
      = some (base16Value (keyWindow (str "abc0000FFff:tail") (str "abc")), none) ∧
    base16Value (keyWindow (str "abc0000FFff:tail") (str "abc")) = 65535 ∧
    malformedKey (str "abc0000FFf") (str "abc") ∧
    failed (chunkKeyBlockNum (str "abc0000FFf") (str "abc")) :=
  ⟨by decide,
   (chunkKeyBlockNum_fails_iff_malformed (str "abc0000FFff:tail") (str "abc")).2.2.1
     (by decide),
   by decide, by decide,
   (chunkKeyBlockNum_fails_iff_malformed (str "abc0000FFf") (str "abc")).2.1.mpr
     (by decide)⟩

/-- Claim C8: `chunkKeyRevBlockNum` has the contract of `chunkKeyBlockNum`,
complemented. For every key and prefix it is an error exactly when
`chunkKeyBlockNum` is an error (and then it is the same error, with block
number 0), and whenever `chunkKeyBlockNum` returns `v` with no error,
`chunkKeyRevBlockNum` returns `0xFFFFFFFF - v` with no error, `v` being at
most `0xFFFFFFFF`. -/
theorem chunkKeyRevBlockNum_complements (key prefixKey : GoString) :
    (failed (chunkKeyRevBlockNum key prefixKey) ↔ failed (chunkKeyBlockNum key prefixKey)) ∧
    (∀ v e, chunkKeyBlockNum key prefixKey = some (v, some e) →
      chunkKeyRevBlockNum key prefixKey = some (0, some e)) ∧
    (∀ v, chunkKeyBlockNum key prefixKey = some (v, none) →
      v ≤ 4294967295 ∧ chunkKeyRevBlockNum key prefixKey = some (4294967295 - v, none)) := by
  rcases chunkKeyBlockNum_cases key prefixKey with ⟨_, e, he⟩ | ⟨_, hv, h⟩
  · have hr : chunkKeyRevBlockNum key prefixKey = some (0, some e) := by
      unfold chunkKeyRevBlockNum; rw [he]
    refine ⟨⟨fun _ => ⟨0, e, he⟩, fun _ => ⟨0, e, hr⟩⟩, ?_, ?_⟩
    · intro v e' h'
      rw [he] at h'
      simp only [Option.some.injEq, Prod.mk.injEq] at h'
      rw [hr, h'.2]
    · intro v h'
      rw [he] at h'
      simp at h'
  · have hr : chunkKeyRevBlockNum key prefixKey
        = some (4294967295 - base16Value (keyWindow key prefixKey), none) := by
      unfold chunkKeyRevBlockNum; rw [h]
      simp only
      rw [Nat.mod_eq_of_lt hv, subU32_max _ hv]
    refine ⟨⟨?_, ?_⟩, ?_, ?_⟩
    · rintro ⟨v, e, h'⟩
      rw [hr] at h'
      simp at h'
    · rintro ⟨v, e, h'⟩
      rw [h] at h'
      simp at h'
    · intro v e h'
      rw [h] at h'
      simp at h'
    · intro v h'
      rw [h] at h'
      simp only [Option.some.injEq, Prod.mk.injEq, and_true] at h'
      subst h'
      exact ⟨by norm_num at hv; omega, hr⟩

theorem chunkKeyRevBlockNum_complements_witness :
    chunkKeyBlockNum (str "abc00000010") (str "abc") = some (16, none) ∧
    chunkKeyRevBlockNum (str "abc00000010") (str "abc") = some (4294967279, none) :=
  ⟨by decide,
   ((chunkKeyRevBlockNum_complements (str "abc00000010") (str "abc")).2.2 16 (by decide)).2⟩

/-- Claim C9: the reverse prefix parse recovers the written block number
over the whole 32-bit range. For every prefix `p`, block height `h` of 32
bits and suffix `s`, `chunkKeyRevBlockNum (p ++ HexRevBlockNum h ++ s) p`
returns `h` with no error. -/
theorem chunkKeyRevBlockNum_HexRevBlockNum (p s : GoString) (h : Nat) (hh : h < 2 ^ 32) :
    chunkKeyRevBlockNum (p ++ HexRevBlockNum h ++ s) p = some (h, none) := by
  have hc : 4294967295 - h < 2 ^ 32 := by norm_num; omega
  have hfwd : chunkKeyBlockNum (p ++ HexRevBlockNum h ++ s) p
      = some (4294967295 - h, none) := by
    unfold HexRevBlockNum
    rw [subU32_max h hh]
    obtain ⟨hlen, hlow, hval⟩ := HexBlockNum_shape (4294967295 - h) hc
    rw [chunkKeyBlockNum_append p _ s hlen (fun c hx => isHexDigit_of_lower c (hlow c hx)),
      hval]
  unfold chunkKeyRevBlockNum
  rw [hfwd]
  simp only
  rw [Nat.mod_eq_of_lt hc, subU32_max _ hc]
  norm_num at hh
  congr 2
  omega

theorem chunkKeyRevBlockNum_HexRevBlockNum_witness :
    (0 : Nat) < 2 ^ 32 ∧
    chunkKeyRevBlockNum (str "tr:" ++ HexRevBlockNum 0 ++ str ":x") (str "tr:")
      = some (0, none) :=
  ⟨by decide, chunkKeyRevBlockNum_HexRevBlockNum (str "tr:") (str ":x") 0 (by decide)⟩

/-- Claim C10: `KeyChunkToBlockNum` is strict on length. For every chunk
whose length is not 8 it returns the length error with block number 0
(so for `"0a"`), never a value read from a truncated or padded chunk; for a
chunk of length 8 it succeeds exactly when all 8 bytes are hexadecimal
digits, and then returns their base-16 value (`"0000000a"` gives 10). -/
theorem KeyChunkToBlockNum_strict (chunk : GoString) :
    (chunk.length ≠ 8 → KeyChunkToBlockNum chunk = (0, some KeyError.chunkLength)) ∧
    (chunk.length = 8 →
      ((KeyChunkToBlockNum chunk).2 = none ↔ ∀ c ∈ chunk, isHexDigit c) ∧
      ((∀ c ∈ chunk, isHexDigit c) →
        KeyChunkToBlockNum chunk = (base16Value chunk, none))) ∧
    KeyChunkToBlockNum (str "0a") = (0, some KeyError.chunkLength) ∧
    KeyChunkToBlockNum (str "0000000a") = (10, none) := by
  refine ⟨?_, ?_, by decide, by decide⟩
  · intro hlen
    unfold KeyChunkToBlockNum
    rw [if_pos hlen]
  · intro hlen
    have hok : (∀ c ∈ chunk, isHexDigit c) →
        KeyChunkToBlockNum chunk = (base16Value chunk, none) := by
      intro hall
      obtain ⟨hpu, hv⟩ := ParseUint16_hex8 chunk hlen hall
      unfold KeyChunkToBlockNum
      rw [if_neg (by simp [hlen]), hpu]
      simp only
      rw [Nat.mod_eq_of_lt hv]
    refine ⟨⟨?_, fun hall => by rw [hok hall]⟩, hok⟩
    intro hnone
    by_contra hall
    have hbad : ∃ c ∈ chunk, ¬ isHexDigit c := by
      push_neg at hall; exact hall
    have herr := ParseUint16_not_hex chunk 32 hbad
    unfold KeyChunkToBlockNum at hnone
    rw [if_neg (by simp [hlen])] at hnone
    rcases hpu : ParseUint16 chunk 32 with ⟨v, _ | e⟩
    · rw [hpu] at herr; exact herr rfl
    · rw [hpu] at hnone; simp at hnone

set_option maxRecDepth 100000 in
theorem KeyChunkToBlockNum_strict_witness :
    (str "0a").length ≠ 8 ∧ (str "00000Abc").length = 8 ∧
    KeyChunkToBlockNum (str "0a") = (0, some KeyError.chunkLength) ∧
    KeyChunkToBlockNum (str "00000Abc") = (base16Value (str "00000Abc"), none) ∧
    base16Value (str "00000Abc") = 2748 :=
  ⟨by decide, by decide,
   (KeyChunkToBlockNum_strict (str "0a")).1 (by decide),
   ((KeyChunkToBlockNum_strict (str "00000Abc")).2.1 (by decide)).2 (by decide),
   by decide⟩

/-! ## Further lemmas on the decoders -/

theorem KeyChunkToBlockNum_hex8 (s : GoString) (hlen : s.length = 8)
    (hall : ∀ c ∈ s, isHexDigit c) :
    KeyChunkToBlockNum s = (base16Value s, none) ∧ base16Value s < 2 ^ 32 := by
  obtain ⟨hpu, hv⟩ := ParseUint16_hex8 s hlen hall
  refine ⟨?_, hv⟩
  unfold KeyChunkToBlockNum
  rw [if_neg (by simp [hlen]), hpu]
  simp only
  rw [Nat.mod_eq_of_lt hv]

theorem KeyChunkToBlockNum_not_hex (s : GoString) (hlen : s.length = 8)
    (hbad : ∃ c ∈ s, ¬ isHexDigit c) : (KeyChunkToBlockNum s).2 ≠ none := by
  have herr := ParseUint16_not_hex s 32 hbad
  unfold KeyChunkToBlockNum
  rw [if_neg (by simp [hlen])]
  rcases hpu : ParseUint16 s 32 with ⟨v, _ | e⟩
  · rw [hpu] at herr; exact absurd rfl herr
  · simp

set_option maxRecDepth 100000 in
theorem digitAt_hexDigitValue (c : Byte) (h : isLowerHexDigit c) :
    digitAt (hexDigitValue c) = c := by
  revert c; decide

/-- Writing the value of a string of lowercase hexadecimal digits with as
many digits gives the string back. -/
theorem hexFixed_base16Value (cs : GoString) (hlow : ∀ c ∈ cs, isLowerHexDigit c) :
    hexFixed cs.length (base16Value cs) = cs := by
  induction cs using List.reverseRecOn with
  | nil => rfl
  | append_singleton cs c ih =>
    have hcs : ∀ x ∈ cs, isLowerHexDigit x := fun x hx => hlow x (by simp [hx])
    have hc : isLowerHexDigit c := hlow c (by simp)
    have hd := hexDigitValue_lt c
    rw [base16Value_eq, base16From_snoc, ← base16Value_eq, List.length_append,
      List.length_singleton]
    simp only [hexFixed]
    have h1 : (base16Value cs * 16 + hexDigitValue c) / 16 = base16Value cs := by omega
    have h2 : (base16Value cs * 16 + hexDigitValue c) % 16 = hexDigitValue c := by omega
    rw [h1, h2, ih hcs, digitAt_hexDigitValue c hc]

theorem parseUintLoop_range (maxVal : Nat) (cs : GoString) :
    ∀ n, (parseUintLoop maxVal cs n).2 = some NumError.errRange →
      (parseUintLoop maxVal cs n).1 = maxVal := by
  induction cs with
  | nil => intro n h; simp [parseUintLoop] at h
  | cons c cs ih =>
    intro n
    simp only [parseUintLoop]
    cases digitVal c with
    | none => simp
    | some d =>
      simp only
      split
      · simp
      · split
        · simp
        · split
          · simp
          · exact ih _

theorem ParseUint16_range (s : GoString) (h : (ParseUint16 s 32).2 = some NumError.errRange) :
    (ParseUint16 s 32).1 = 4294967295 := by
  unfold ParseUint16 at h ⊢
  split
  · next hs => rw [if_pos hs] at h; simp at h
  · next hs =>
    rw [if_neg hs] at h
    rw [parseUintLoop_range _ s 0 h, maxVal32]

/-- The signed parse of a string without a leading sign, by the outcome of
the unsigned parse. -/
theorem ParseInt16_unsigned (c : Byte) (rest : GoString) (h43 : c ≠ 43) (h45 : c ≠ 45) :
    (∀ un, ParseUint16 (c :: rest) 32 = (un, none) → un < 2 ^ 31 →
      ParseInt16 (c :: rest) 32 = ((un : Int), none)) ∧
    (∀ un, ParseUint16 (c :: rest) 32 = (un, none) → 2 ^ 31 ≤ un →
      ParseInt16 (c :: rest) 32 = (2147483647, some NumError.errRange)) ∧
    ((ParseUint16 (c :: rest) 32).2 ≠ none → (ParseInt16 (c :: rest) 32).2 ≠ none) := by
  refine ⟨?_, ?_, ?_⟩
  · intro un hpu hlt
    have hlt' : ¬ (2147483648 ≤ un) := by norm_num at hlt; omega
    simp [ParseInt16, h43, h45, hpu, hlt']
  · intro un hpu hge
    have hge' : 2147483648 ≤ un := by norm_num at hge; omega
    simp [ParseInt16, h43, h45, hpu, hge']
  · intro herr
    rcases hpu : ParseUint16 (c :: rest) 32 with ⟨un, _ | e⟩
    · rw [hpu] at herr; exact absurd rfl herr
    · cases e with
      | errSyntax => simp [ParseInt16, h43, h45, hpu]
      | errRange =>
        have hr := ParseUint16_range (c :: rest) (by rw [hpu])
        rw [hpu] at hr
        simp only at hr
        subst hr
        simp [ParseInt16, h43, h45, hpu]

theorem hexToBlockNum_of_ParseInt16 (s : GoString) :
    (∀ v : Nat, ParseInt16 s 32 = ((v : Int), none) → v < 2 ^ 32 → hexToBlockNum s = some v) ∧
    ((ParseInt16 s 32).2 ≠ none → hexToBlockNum s = none) := by
  constructor
  · intro v h hv
    unfold hexToBlockNum
    rw [h]
    simp only
    congr 1
    have : ((v : Int) % 2 ^ 32) = (v : Int) := by
      apply Int.emod_eq_of_lt (by omega)
      norm_num at hv ⊢
      omega
    rw [this]
    simp
  · intro h
    unfold hexToBlockNum
    rcases hp : ParseInt16 s 32 with ⟨v, _ | e⟩
    · rw [hp] at h; exact absurd rfl h
    · rfl

/-- The head of an encoded block number is a digit, no sign. -/
theorem HexBlockNum_cons (h : Nat) (hh : h < 2 ^ 32) :
    ∃ c rest, HexBlockNum h = c :: rest ∧ c ≠ 43 ∧ c ≠ 45 := by
  obtain ⟨hlen, hlow, _⟩ := HexBlockNum_shape h hh
  rcases hs : HexBlockNum h with _ | ⟨c, rest⟩
  · rw [hs] at hlen; simp at hlen
  · refine ⟨c, rest, rfl, ?_, ?_⟩
    · have := hlow c (by rw [hs]; simp)
      rintro rfl
      revert this; decide
    · have := hlow c (by rw [hs]; simp)
      rintro rfl
      revert this; decide

/-- The exact domain on which `hexToBlockNum` decodes an encoded block number. -/
theorem hexToBlockNum_HexBlockNum_cases (h : Nat) (hh : h < 2 ^ 32) :
    (h < 2 ^ 31 → hexToBlockNum (HexBlockNum h) = some h) ∧
    (2 ^ 31 ≤ h → hexToBlockNum (HexBlockNum h) = none) := by
  obtain ⟨hlen, hlow, hval⟩ := HexBlockNum_shape h hh
  obtain ⟨c, rest, hs, h43, h45⟩ := HexBlockNum_cons h hh
  obtain ⟨hpu, _⟩ := ParseUint16_hex8 (HexBlockNum h) hlen
    (fun x hx => isHexDigit_of_lower x (hlow x hx))
  rw [hval, hs] at hpu
  obtain ⟨hsmall, hbig, _⟩ := ParseInt16_unsigned c rest h43 h45
  rw [hs]
  constructor
  · intro hlt
    exact (hexToBlockNum_of_ParseInt16 (c :: rest)).1 h (hsmall h hpu hlt) hh
  · intro hge
    apply (hexToBlockNum_of_ParseInt16 (c :: rest)).2
    rw [hbig h hpu hge]
    simp

/-! ## Claims on round trips and strictness -/

/-- Claim C11: the exact-chunk round trip, encode then decode. For every
block height `h` of 32 bits, `KeyChunkToBlockNum (HexBlockNum h)` returns `h`
with no error. -/
theorem KeyChunkToBlockNum_HexBlockNum (h : Nat) (hh : h < 2 ^ 32) :
    KeyChunkToBlockNum (HexBlockNum h) = (h, none) := by
  obtain ⟨hlen, hlow, hval⟩ := HexBlockNum_shape h hh
  rw [(KeyChunkToBlockNum_hex8 _ hlen (fun c hc => isHexDigit_of_lower c (hlow c hc))).1,
    hval]

theorem KeyChunkToBlockNum_HexBlockNum_witness :
    (3735928559 : Nat) < 2 ^ 32 ∧
    KeyChunkToBlockNum (HexBlockNum 3735928559) = (3735928559, none) :=
  ⟨by decide, KeyChunkToBlockNum_HexBlockNum 3735928559 (by decide)⟩

/-- Claim C12: the exact-chunk round trip, decode then encode. For every
chunk `c` of exactly 8 lowercase hexadecimal digits, `KeyChunkToBlockNum c`
succeeds with some 32-bit `h`, and `HexBlockNum h = c`. -/
theorem HexBlockNum_KeyChunkToBlockNum (c : GoString) (hlen : c.length = 8)
    (hlow : ∀ x ∈ c, isLowerHexDigit x) :
    ∃ h, KeyChunkToBlockNum c = (h, none) ∧ h < 2 ^ 32 ∧ HexBlockNum h = c := by
  obtain ⟨hk, hv⟩ := KeyChunkToBlockNum_hex8 c hlen
    (fun x hx => isHexDigit_of_lower x (hlow x hx))
  refine ⟨base16Value c, hk, hv, ?_⟩
  rw [HexBlockNum_eq _ hv]
  have := hexFixed_base16Value c hlow
  rwa [hlen] at this

set_option maxRecDepth 100000 in
theorem HexBlockNum_KeyChunkToBlockNum_witness :
    (str "00c0ffee").length = 8 ∧ (∀ x ∈ str "00c0ffee", isLowerHexDigit x) ∧
    ∃ h, KeyChunkToBlockNum (str "00c0ffee") = (h, none) ∧ h < 2 ^ 32 ∧
      HexBlockNum h = str "00c0ffee" :=
  ⟨by decide, by decide,
   HexBlockNum_KeyChunkToBlockNum (str "00c0ffee") (by decide) (by decide)⟩

/-- Claim C17, refuted as stated: the one-byte string `"a"` has a length other
than 8, and `hexToBlockNum` returns the block number 10 for it; the string
`"-0000001"` holds the byte `-`, which is no hexadecimal digit, and
`hexToBlockNum` returns the block number 4294967295 for it. -/
theorem hexToBlockNum_accepts_malformed_input :
    (str "a").length ≠ 8 ∧ hexToBlockNum (str "a") = some 10 ∧
    (∃ c ∈ str "-0000001", ¬ isHexDigit c) ∧
    hexToBlockNum (str "-0000001") = some 4294967295 := by
  decide

/-- Claim C17, amended: `hexToBlockNum` fails, returning no value, for the
empty string and for every string that does not start with `+` or `-` and
contains a byte outside `0-9`, `a-f`, `A-F`. -/
theorem hexToBlockNum_rejects_non_hex (s : GoString)
    (hsign : s.head? ≠ some 43 ∧ s.head? ≠ some 45)
    (hbad : s = [] ∨ ∃ c ∈ s, ¬ isHexDigit c) :
    hexToBlockNum s = none := by
  rcases s with _ | ⟨c, rest⟩
  · rfl
  · have h43 : c ≠ 43 := fun e => hsign.1 (by rw [e]; rfl)
    have h45 : c ≠ 45 := fun e => hsign.2 (by rw [e]; rfl)
    have hex : ∃ x ∈ c :: rest, ¬ isHexDigit x := by
      rcases hbad with h | h
      · cases h
      · exact h
    apply (hexToBlockNum_of_ParseInt16 (c :: rest)).2
    exact (ParseInt16_unsigned c rest h43 h45).2.2 (ParseUint16_not_hex _ 32 hex)

set_option maxRecDepth 100000 in
theorem hexToBlockNum_rejects_non_hex_witness :
    ((str "0000000g").head? ≠ some 43 ∧ (str "0000000g").head? ≠ some 45) ∧
    (∃ c ∈ str "0000000g", ¬ isHexDigit c) ∧
    hexToBlockNum (str "0000000g") = none :=
  ⟨by decide, by decide,
   hexToBlockNum_rejects_non_hex (str "0000000g") (by decide) (Or.inr (by decide))⟩

/-- Claim C18: the three chunk-key parsers never crash. For every key, prefix
and chunk, `chunkKeyBlockNum` and `chunkKeyRevBlockNum` return (a value or an
error value, never a panic) and `KeyChunkToBlockNum` returns a value or an
error with block number 0; the slice `key[len(prefix) : len(prefix)+8]` is
within bounds whenever the two guards before it have passed; and whenever
`chunkKeyBlockNum` returns `v` with no error, `v` is at most `MaxUint32`, so the
subtraction `MaxUint32 - v` of `chunkKeyRevBlockNum` does not wrap. -/
theorem chunk_parsers_never_panic (key prefixKey chunk : GoString) :
    (∃ r, chunkKeyBlockNum key prefixKey = some r) ∧
    (∃ r, chunkKeyRevBlockNum key prefixKey = some r) ∧
    ((KeyChunkToBlockNum chunk).2 = none ∨ ∃ e, KeyChunkToBlockNum chunk = (0, some e)) ∧
    (HasPrefix key prefixKey = true → ¬ key.length < prefixKey.length + 8 →
      ∃ w, slice key prefixKey.length (prefixKey.length + 8) = some w ∧ w.length = 8) ∧
    (∀ v, chunkKeyBlockNum key prefixKey = some (v, none) →
      v ≤ MaxUint32 ∧ subU32 MaxUint32 v = MaxUint32 - v) := by
  refine ⟨?_, ?_, ?_, ?_, ?_⟩
  · rcases chunkKeyBlockNum_cases key prefixKey with ⟨_, e, he⟩ | ⟨_, _, h⟩
    · exact ⟨_, he⟩
    · exact ⟨_, h⟩
  · rcases chunkKeyBlockNum_cases key prefixKey with ⟨_, e, he⟩ | ⟨_, _, h⟩
    · exact ⟨(0, some e), by unfold chunkKeyRevBlockNum; rw [he]⟩
    · exact ⟨_, by unfold chunkKeyRevBlockNum; rw [h]⟩
  · unfold KeyChunkToBlockNum
    split
    · exact Or.inr ⟨_, rfl⟩
    · rcases ParseUint16 chunk 32 with ⟨v, _ | e⟩
      · exact Or.inl rfl
      · exact Or.inr ⟨_, rfl⟩
  · intro _ hl
    exact ⟨_, slice_window key prefixKey (by omega)⟩
  · intro v hv
    rcases chunkKeyBlockNum_cases key prefixKey with ⟨_, e, he⟩ | ⟨_, hlt, h⟩
    · rw [he] at hv; simp at hv
    · rw [h] at hv
      simp only [Option.some.injEq, Prod.mk.injEq, and_true] at hv
      subst hv
      refine ⟨by unfold MaxUint32; norm_num at hlt; omega, ?_⟩
      rw [subU32_max _ hlt]
      rfl

set_option maxRecDepth 100000 in
theorem chunk_parsers_never_panic_witness :
    HasPrefix (str "abc0000ffff") (str "abc") = true ∧
    ¬ (str "abc0000ffff").length < (str "abc").length + 8 ∧
    (∃ w, slice (str "abc0000ffff") (str "abc").length ((str "abc").length + 8) = some w ∧
      w.length = 8) ∧
    chunkKeyBlockNum (str "abc0000ffff") (str "abc") = some (65535, none) ∧
    ((65535 : Nat) ≤ MaxUint32 ∧ subU32 MaxUint32 65535 = MaxUint32 - 65535) :=
  ⟨by decide, by decide,
   (chunk_parsers_never_panic (str "abc0000ffff") (str "abc") []).2.2.2.1
     (by decide) (by decide),
   by decide,
   (chunk_parsers_never_panic (str "abc0000ffff") (str "abc") []).2.2.2.2 65535 (by decide)⟩

/-- Claim C20: the exact success domain of the signed 32-bit parse inside
`hexToBlockNum`. For every block height `h` of 32 bits,
`hexToBlockNum (HexBlockNum h)` returns `h` when `h < 2^31` and panics when
`h ≥ 2^31`; `BlockNumHexRev (HexRevBlockNum h)` returns `h` when `h ≥ 2^31` and
panics when `h < 2^31`. -/
theorem hexToBlockNum_success_domain (h : Nat) (hh : h < 2 ^ 32) :
    (h < 2 ^ 31 → hexToBlockNum (HexBlockNum h) = some h) ∧
    (2 ^ 31 ≤ h → hexToBlockNum (HexBlockNum h) = none) ∧
    (2 ^ 31 ≤ h → BlockNumHexRev (HexRevBlockNum h) = some h) ∧
    (h < 2 ^ 31 → BlockNumHexRev (HexRevBlockNum h) = none) := by
  have hc : 4294967295 - h < 2 ^ 32 := by norm_num; omega
  obtain ⟨hsmall, hbig⟩ := hexToBlockNum_HexBlockNum_cases h hh
  obtain ⟨rsmall, rbig⟩ := hexToBlockNum_HexBlockNum_cases (4294967295 - h) hc
  refine ⟨hsmall, hbig, ?_, ?_⟩
  · intro hge
    unfold BlockNumHexRev HexRevBlockNum
    rw [subU32_max h hh, rsmall (by norm_num at hge hh ⊢; omega)]
    simp only [Option.map_some']
    rw [subU32_max _ hc]
    congr 1
    norm_num at hh
    omega
  · intro hlt
    unfold BlockNumHexRev HexRevBlockNum
    rw [subU32_max h hh, rbig (by norm_num at hlt hh ⊢; omega)]
    rfl

theorem hexToBlockNum_success_domain_witness :
    (2147483647 : Nat) < 2 ^ 32 ∧ (2147483648 : Nat) < 2 ^ 32 ∧
    hexToBlockNum (HexBlockNum 2147483647) = some 2147483647 ∧
    BlockNumHexRev (HexRevBlockNum 2147483647) = none ∧
    hexToBlockNum (HexBlockNum 2147483648) = none ∧
    BlockNumHexRev (HexRevBlockNum 2147483648) = some 2147483648 :=
  ⟨by decide, by decide,
   (hexToBlockNum_success_domain 2147483647 (by decide)).1 (by decide),
   (hexToBlockNum_success_domain 2147483647 (by decide)).2.2.2 (by decide),
   (hexToBlockNum_success_domain 2147483648 (by decide)).2.1 (by decide),
   (hexToBlockNum_success_domain 2147483648 (by decide)).2.2.1 (by decide)⟩

/-! ## `BlockNum` -/

set_option maxRecDepth 100000 in
theorem fromHexChar_hex (c : Byte) (h : isHexDigit c) :
    fromHexChar c = some (hexDigitValue c) := by
  revert c; decide

set_option maxRecDepth 100000 in
theorem fromHexChar_not_hex (c : Byte) (h : ¬ isHexDigit c) : fromHexChar c = none := by
  revert c; decide

theorem DecodeString_not_hex : ∀ (n : Nat) (s : GoString), s.length ≤ n →
    (∃ c ∈ s, ¬ isHexDigit c) → (DecodeString s).2 ≠ none := by
  intro n
  induction n using Nat.strong_induction_on with
  | _ n ih =>
    intro s hn hbad
    match s, hn, hbad with
    | [], _, hbad => obtain ⟨c, hc, _⟩ := hbad; simp at hc
    | [c], _, hbad =>
      obtain ⟨x, hx, hxn⟩ := hbad
      have : x = c := by simpa using hx
      subst this
      simp [DecodeString, fromHexChar_not_hex x hxn]
    | c1 :: c2 :: rest, hn, hbad =>
      simp only [DecodeString]
      cases h1 : fromHexChar c1 with
      | none => simp
      | some a =>
        cases h2 : fromHexChar c2 with
        | none => simp
        | some b =>
          simp only
          have hlen : rest.length ≤ n - 2 := by simp at hn; omega
          apply ih (n - 2) (by simp at hn; omega) rest hlen
          obtain ⟨x, hx, hxn⟩ := hbad
          have hf := fromHexChar_not_hex x hxn
          rcases List.mem_cons.mp hx with rfl | hx
          · rw [hf] at h1; cases h1
          · rcases List.mem_cons.mp hx with rfl | hx
            · rw [hf] at h2; cases h2
            · exact ⟨x, hx, hxn⟩

theorem byte_of_digits (a b : Nat) (ha : a < 16) (hb : b < 16) :
    ((a <<< 4) % 256) ||| b = a * 16 + b := by
  have h1 : a <<< 4 = 2 ^ 4 * a := by rw [Nat.shiftLeft_eq, Nat.mul_comm]
  have h2 : (2 ^ 4 * a) % 256 = 2 ^ 4 * a := Nat.mod_eq_of_lt (by omega)
  rw [h1, h2, ← Nat.mul_add_lt_is_or (by omega) a]
  omega

theorem uint32_of_bytes (b0 b1 b2 b3 : Nat) (h0 : b0 < 256) (h1 : b1 < 256)
    (h2 : b2 < 256) (h3 : b3 < 256) :
    (b3 ||| ((b2 <<< 8) % 2 ^ 32) ||| ((b1 <<< 16) % 2 ^ 32) ||| ((b0 <<< 24) % 2 ^ 32))
      % 2 ^ 32 = b0 * 16777216 + b1 * 65536 + b2 * 256 + b3 := by
  have e2 : (b2 <<< 8) % 2 ^ 32 = 2 ^ 8 * b2 := by
    rw [Nat.shiftLeft_eq, Nat.mul_comm]; exact Nat.mod_eq_of_lt (by omega)
  have e1 : (b1 <<< 16) % 2 ^ 32 = 2 ^ 16 * b1 := by
    rw [Nat.shiftLeft_eq, Nat.mul_comm]; exact Nat.mod_eq_of_lt (by omega)
  have e0 : (b0 <<< 24) % 2 ^ 32 = 2 ^ 24 * b0 := by
    rw [Nat.shiftLeft_eq, Nat.mul_comm]; exact Nat.mod_eq_of_lt (by omega)
  rw [e2, e1, e0]
  have s2 : b3 ||| 2 ^ 8 * b2 = 2 ^ 8 * b2 + b3 := by
    rw [Nat.or_comm, ← Nat.mul_add_lt_is_or (by omega) b2]
  have s1 : (2 ^ 8 * b2 + b3) ||| 2 ^ 16 * b1 = 2 ^ 16 * b1 + (2 ^ 8 * b2 + b3) := by
    rw [Nat.or_comm, ← Nat.mul_add_lt_is_or (by omega) b1]
  have s0 : (2 ^ 16 * b1 + (2 ^ 8 * b2 + b3)) ||| 2 ^ 24 * b0
      = 2 ^ 24 * b0 + (2 ^ 16 * b1 + (2 ^ 8 * b2 + b3)) := by
    rw [Nat.or_comm, ← Nat.mul_add_lt_is_or (by omega) b0]
  rw [s2, s1, s0]
  omega

theorem slice_head8 (s : GoString) (h : 8 ≤ s.length) : slice s 0 8 = some (s.take 8) := by
  unfold slice
  rw [if_pos ⟨by omega, h⟩]
  simp

theorem BlockNum_take8 (s : GoString) (h : 8 ≤ s.length) :
    BlockNum s = BlockNum (s.take 8) := by
  have hl : (s.take 8).length = 8 := by rw [List.length_take]; omega
  unfold BlockNum
  rw [if_neg (by omega), if_neg (by omega), slice_head8 s h, slice_head8 _ (by omega)]
  rw [List.take_take]
  simp

theorem BlockNum_eight_hex (c1 c2 c3 c4 c5 c6 c7 c8 : Byte)
    (hall : ∀ c ∈ [c1, c2, c3, c4, c5, c6, c7, c8], isHexDigit c) :
    BlockNum [c1, c2, c3, c4, c5, c6, c7, c8]
      = some (base16Value [c1, c2, c3, c4, c5, c6, c7, c8]) := by
  have f1 := fromHexChar_hex c1 (hall c1 (by simp))
  have f2 := fromHexChar_hex c2 (hall c2 (by simp))
  have f3 := fromHexChar_hex c3 (hall c3 (by simp))
  have f4 := fromHexChar_hex c4 (hall c4 (by simp))
  have f5 := fromHexChar_hex c5 (hall c5 (by simp))
  have f6 := fromHexChar_hex c6 (hall c6 (by simp))
  have f7 := fromHexChar_hex c7 (hall c7 (by simp))
  have f8 := fromHexChar_hex c8 (hall c8 (by simp))
  have d1 := hexDigitValue_lt c1
  have d2 := hexDigitValue_lt c2
  have d3 := hexDigitValue_lt c3
  have d4 := hexDigitValue_lt c4
  have d5 := hexDigitValue_lt c5
  have d6 := hexDigitValue_lt c6
  have d7 := hexDigitValue_lt c7
  have d8 := hexDigitValue_lt c8
  unfold BlockNum
  rw [if_neg (by simp), slice_head8 _ (by simp)]
  simp only [List.take, DecodeString, f1, f2, f3, f4, f5, f6, f7, f8, bigEndianUint32,
    byte_of_digits _ _ d1 d2, byte_of_digits _ _ d3 d4, byte_of_digits _ _ d5 d6,
    byte_of_digits _ _ d7 d8]
  rw [uint32_of_bytes _ _ _ _ (by omega) (by omega) (by omega) (by omega)]
  simp only [base16Value, base16From, List.foldl]
  congr 1
  omega

theorem eight_bytes (s : GoString) (hlen : s.length = 8) :
    ∃ c1 c2 c3 c4 c5 c6 c7 c8, s = [c1, c2, c3, c4, c5, c6, c7, c8] := by
  match s, hlen with
  | [c1, c2, c3, c4, c5, c6, c7, c8], _ => exact ⟨c1, c2, c3, c4, c5, c6, c7, c8, rfl⟩

/-- On 8 bytes `BlockNum` returns their base-16 value when all are
hexadecimal digits, and panics otherwise. -/
theorem BlockNum_len8 (s : GoString) (hlen : s.length = 8) :
    ((∀ c ∈ s, isHexDigit c) → BlockNum s = some (base16Value s)) ∧
    ((∃ c ∈ s, ¬ isHexDigit c) → BlockNum s = none) := by
  constructor
  · intro hall
    obtain ⟨c1, c2, c3, c4, c5, c6, c7, c8, rfl⟩ := eight_bytes s hlen
    exact BlockNum_eight_hex c1 c2 c3 c4 c5 c6 c7 c8 hall
  · intro hbad
    have herr := DecodeString_not_hex s.length s (le_refl _) hbad
    unfold BlockNum
    rw [if_neg (by omega), slice_head8 s (by omega)]
    have ht : s.take 8 = s := by rw [← hlen]; exact List.take_length s
    rw [ht]
    rcases hd : DecodeString s with ⟨bin, _ | e⟩
    · rw [hd] at herr; exact absurd rfl herr
    · simp only [hd]

/-! ## Claims on `BlockNum` -/

/-- Claim C15: short input yields zero. For every `blockID` of fewer than 8
bytes, the empty string and inputs with bytes that are no hexadecimal digits
included, `BlockNum blockID` returns 0 without failing. -/
theorem BlockNum_short (blockID : GoString) (hlen : blockID.length < 8) :
    BlockNum blockID = some 0 ∧ BlockNum (str "") = some 0 ∧
    BlockNum (str "zz-zz") = some 0 := by
  refine ⟨?_, by decide, by decide⟩
  unfold BlockNum
  rw [if_pos hlen]

theorem BlockNum_short_witness :
    (str "0000001").length < 8 ∧ BlockNum (str "0000001") = some 0 :=
  ⟨by decide, (BlockNum_short (str "0000001") (by decide)).1⟩

/-- Claim C16: the head extraction reads only the first 8 bytes. For every
block height `h` of 32 bits and every string `rest`,
`BlockNum (HexBlockNum h ++ rest)` returns `h`; and for every input `s` of
length at least 8, `BlockNum s` equals `BlockNum` of the first 8 bytes of `s`. -/
theorem BlockNum_reads_head (h : Nat) (rest s : GoString) (hh : h < 2 ^ 32)
    (hs : 8 ≤ s.length) :
    BlockNum (HexBlockNum h ++ rest) = some h ∧ BlockNum s = BlockNum (s.take 8) := by
  refine ⟨?_, BlockNum_take8 s hs⟩
  obtain ⟨hlen, hlow, hval⟩ := HexBlockNum_shape h hh
  rw [BlockNum_take8 _ (by rw [List.length_append]; omega)]
  have ht : (HexBlockNum h ++ rest).take 8 = HexBlockNum h := by
    rw [← hlen]; exact List.take_left _ _
  rw [ht, (BlockNum_len8 _ hlen).1 (fun c hc => isHexDigit_of_lower c (hlow c hc)), hval]

set_option maxRecDepth 100000 in
theorem BlockNum_reads_head_witness :
    (16 : Nat) < 2 ^ 32 ∧ 8 ≤ (str "0000beef:tail").length ∧
    BlockNum (HexBlockNum 16 ++ str "deadbeef") = some 16 ∧
    BlockNum (str "0000beef:tail") = BlockNum ((str "0000beef:tail").take 8) ∧
    BlockNum (str "0000beef:tail") = some 48879 :=
  ⟨by decide, by decide,
   (BlockNum_reads_head 16 (str "deadbeef") (str "0000beef:tail") (by decide) (by decide)).1,
   (BlockNum_reads_head 16 (str "deadbeef") (str "0000beef:tail") (by decide) (by decide)).2,
   by decide⟩

/-- Claim C19: the two 8-byte decoders agree. For every string `c` of length
8, `BlockNum c` returns a value exactly when `KeyChunkToBlockNum c` returns no
error, both then return the same number, and `BlockNum c` panics exactly when
`KeyChunkToBlockNum c` returns an error. -/
theorem BlockNum_agrees_with_KeyChunkToBlockNum (c : GoString) (hlen : c.length = 8) :
    ((∃ v, BlockNum c = some v) ↔ (KeyChunkToBlockNum c).2 = none) ∧
    (∀ v, BlockNum c = some v → KeyChunkToBlockNum c = (v, none)) ∧
    (BlockNum c = none ↔ (KeyChunkToBlockNum c).2 ≠ none) := by
  by_cases hall : ∀ x ∈ c, isHexDigit x
  · have hb := (BlockNum_len8 c hlen).1 hall
    have hk := (KeyChunkToBlockNum_hex8 c hlen hall).1
    refine ⟨⟨fun _ => by rw [hk], fun _ => ⟨_, hb⟩⟩, ?_, ?_⟩
    · intro v hv
      rw [hb] at hv
      cases hv
      exact hk
    · rw [hb, hk]
      simp
  · have hbad : ∃ x ∈ c, ¬ isHexDigit x := by
      push_neg at hall; exact hall
    have hb := (BlockNum_len8 c hlen).2 hbad
    have hk := KeyChunkToBlockNum_not_hex c hlen hbad
    refine ⟨⟨?_, fun h => absurd h hk⟩, ?_, ⟨fun _ => hk, fun _ => hb⟩⟩
    · rintro ⟨v, hv⟩
      rw [hb] at hv
      cases hv
    · intro v hv
      rw [hb] at hv
      cases hv

set_option maxRecDepth 100000 in
theorem BlockNum_agrees_with_KeyChunkToBlockNum_witness :
    (str "00AbCdEf").length = 8 ∧ BlockNum (str "00AbCdEf") = some 11259375 ∧
    KeyChunkToBlockNum (str "00AbCdEf") = (11259375, none) ∧
    (str "0000000g").length = 8 ∧ BlockNum (str "0000000g") = none ∧
    (KeyChunkToBlockNum (str "0000000g")).2 ≠ none :=
  ⟨by decide, by decide,
   (BlockNum_agrees_with_KeyChunkToBlockNum (str "00AbCdEf") (by decide)).2.1 11259375
     (by decide),
   by decide, by decide,
   (BlockNum_agrees_with_KeyChunkToBlockNum (str "0000000g") (by decide)).2.2.mp
     (by decide)⟩

/-! ## `strings.Split` and `chunkKeyUint64` -/

theorem cutColon_free (f rest : GoString) (hf : colonFree f) :
    cutColon (f ++ 58 :: rest) = some (f, rest) := by
  induction f with
  | nil => simp [cutColon]
  | cons c cs ih =>
    have hc : c ≠ 58 := hf c (List.mem_cons_self _ _)
    have hcs : colonFree cs := fun x hx => hf x (List.mem_cons_of_mem _ hx)
    simp [cutColon, hc, ih hcs]

theorem count_colonFree (f : GoString) (hf : colonFree f) : f.count 58 = 0 := by
  rw [List.count_eq_zero]
  intro h
  exact hf 58 h rfl

theorem count_joinColon : ∀ fs : List GoString, (∀ f ∈ fs, colonFree f) →
    (joinColon fs).count 58 = fs.length - 1
  | [], _ => rfl
  | [f], h => by
    simp only [joinColon, List.length_singleton]
    exact count_colonFree f (h f (by simp))
  | f :: g :: fs, h => by
    have ih := count_joinColon (g :: fs) (fun x hx => h x (List.mem_cons_of_mem _ hx))
    simp only [joinColon, List.count_append, List.count_cons_self, List.length_cons] at ih ⊢
    rw [ih, count_colonFree f (h f (by simp))]
    omega

theorem genSplitLoop_joinColon : ∀ fs : List GoString, fs ≠ [] → (∀ f ∈ fs, colonFree f) →
    genSplitLoop (fs.length - 1) (joinColon fs) = fs
  | [], h, _ => absurd rfl h
  | [f], _, _ => rfl
  | f :: g :: fs, _, h => by
    have ih := genSplitLoop_joinColon (g :: fs) (by simp)
      (fun x hx => h x (List.mem_cons_of_mem _ hx))
    have hl : (f :: g :: fs).length - 1 = ((g :: fs).length - 1) + 1 := by simp
    rw [hl]
    simp only [joinColon, genSplitLoop, cutColon_free f _ (h f (by simp))]
    rw [ih]

/-- Splitting the colon-joined text of colon-free fields gives the fields. -/
theorem Split_joinColon (fs : List GoString) (hne : fs ≠ []) (h : ∀ f ∈ fs, colonFree f) :
    Split (joinColon fs) = fs := by
  unfold Split
  rw [count_joinColon fs h]
  exact genSplitLoop_joinColon fs hne h

theorem maxVal64 : (2 ^ 64 % 2 ^ 64 + 2 ^ 64 - 1) % 2 ^ 64 = 18446744073709551615 := by
  norm_num

/-- On a 16-byte string of hexadecimal digits `ParseUint(s, 16, 64)` returns
its base-16 value, which fits 64 bits. -/
theorem ParseUint16_hex16 (s : GoString) (hlen : s.length = 16)
    (hall : ∀ c ∈ s, isHexDigit c) :
    ParseUint16 s 64 = (base16Value s, none) ∧ base16Value s < 2 ^ 64 := by
  have hlt := base16From_lt s 0
  rw [hlen] at hlt
  have hv : base16Value s < 2 ^ 64 := by
    rw [base16Value_eq]; norm_num at hlt ⊢; exact hlt
  refine ⟨?_, hv⟩
  have hne : s ≠ [] := by intro h; rw [h] at hlen; simp at hlen
  unfold ParseUint16
  rw [if_neg hne, maxVal64]
  exact parseUintLoop_hex 18446744073709551615 (by norm_num) s 0 hall (by
    rw [← base16Value_eq]; norm_num at hv; omega)

theorem HexName_shape (v : Nat) (hv : v < 2 ^ 64) :
    (HexName v).length = 16 ∧ (∀ c ∈ HexName v, isLowerHexDigit c) ∧
    base16Value (HexName v) = v := by
  have he : HexName v = hexFixed 16 v := by
    unfold HexName
    rw [Nat.mod_eq_of_lt hv]
    exact fmtInteger16_eq v 16 (by norm_num) (by norm_num) (by norm_num at hv ⊢; exact hv)
  rw [he]
  exact ⟨hexFixed_length 16 v, hexFixed_lowerHex 16 v,
    base16Value_hexFixed 16 v (by norm_num at hv ⊢; exact hv)⟩

theorem indexAt_nat {α : Type} (a : List α) (i : Nat) (x : α) (h : a.get? i = some x) :
    indexAt a (i : Int) = some x ∧ ¬ ((i : Int) ≥ (a.length : Int)) := by
  have hi : i < a.length := by
    rw [List.get?_eq_some] at h
    exact h.1
  unfold indexAt
  rw [if_pos ⟨by omega, by omega⟩]
  simp only [Int.toNat_ofNat]
  exact ⟨h, by omega⟩

/-- The outcome of `chunkKeyUint64` at an index that selects a field. -/
theorem chunkKeyUint64_field (key : GoString) (i : Nat) (val : GoString)
    (hget : (Split key).get? i = some val) :
    (val.length = 16 → (∀ c ∈ val, isHexDigit c) →
      chunkKeyUint64 key (i : Int) = some (base16Value val, true)) ∧
    (val.length ≠ 16 ∨ (∃ c ∈ val, ¬ isHexDigit c) →
      chunkKeyUint64 key (i : Int) = some (0, false)) := by
  obtain ⟨hidx, hge⟩ := indexAt_nat (Split key) i val hget
  constructor
  · intro hlen hall
    obtain ⟨hpu, _⟩ := ParseUint16_hex16 val hlen hall
    unfold chunkKeyUint64
    simp only [if_neg hge, hidx]
    rw [if_neg (by simp [hlen]), hpu]
  · intro hbad
    unfold chunkKeyUint64
    simp only [if_neg hge, hidx]
    by_cases hlen : val.length = 16
    · rw [if_neg (by simp [hlen])]
      have hex : ∃ c ∈ val, ¬ isHexDigit c := by
        rcases hbad with h | h
        · exact absurd hlen h
        · exact h
      have herr := ParseUint16_not_hex val 64 hex
      rcases hpu : ParseUint16 val 64 with ⟨v, _ | e⟩
      · rw [hpu] at herr; exact absurd rfl herr
      · rfl
    · rw [if_pos hlen]

/-- An index at or beyond the number of fields gives `(0, false)`. -/
theorem chunkKeyUint64_beyond (key : GoString) (chunkIndex : Int)
    (h : chunkIndex ≥ ((Split key).length : Int)) :
    chunkKeyUint64 key chunkIndex = some (0, false) := by
  unfold chunkKeyUint64
  simp only [if_pos h]

/-- A negative index makes the index expression `chunks[chunkIndex]` panic. -/
theorem chunkKeyUint64_negative (key : GoString) (chunkIndex : Int) (h : chunkIndex < 0) :
    chunkKeyUint64 key chunkIndex = none := by
  have h1 : ¬ (chunkIndex ≥ ((Split key).length : Int)) := by omega
  have h2 : ¬ (0 ≤ chunkIndex ∧ chunkIndex < ((Split key).length : Int)) := by omega
  unfold chunkKeyUint64 indexAt
  simp only [if_neg h1, if_neg h2]

/-! ## Claims on `chunkKeyUint64` -/

/-- Claim C13, at the input where the code departs from it: `"aaaa:bbbb"` has
the two fields `"aaaa"` and `"bbbb"`; the index 5 gives `(0, false)`, but at the
index `-1` the guard `chunkIndex >= len(chunks)` does not fire and the index
expression `chunks[chunkIndex]` panics instead of returning `(0, false)`. -/
theorem chunkKeyUint64_panics_at_minus_one :
    Split (str "aaaa:bbbb") = [str "aaaa", str "bbbb"] ∧
    chunkKeyUint64 (str "aaaa:bbbb") 5 = some (0, false) ∧
    chunkKeyUint64 (str "aaaa:bbbb") (-1) = none := by
  decide

/-- Claim C14: the composite-key field round trip. For every 64-bit `v`,
`HexName v` has length 16 and consists of lowercase hexadecimal digits, and
for every list of colon-free fields and every index `i` whose field is
`HexName v`, `chunkKeyUint64` of the colon-joined fields at `i` returns
`(v, true)`; `chunkKeyUint64 "aaaa:0000000000000001:bbbb" 1` is `(1, true)`. -/
theorem chunkKeyUint64_HexName (v : Nat) (hv : v < 2 ^ 64) (fs : List GoString) (i : Nat)
    (hfree : ∀ f ∈ fs, colonFree f) (hi : fs.get? i = some (HexName v)) :
    (HexName v).length = 16 ∧ (∀ c ∈ HexName v, isLowerHexDigit c) ∧
    chunkKeyUint64 (joinColon fs) (i : Int) = some (v, true) ∧
    chunkKeyUint64 (str "aaaa:0000000000000001:bbbb") 1 = some (1, true) := by
  obtain ⟨hlen, hlow, hval⟩ := HexName_shape v hv
  refine ⟨hlen, hlow, ?_, by decide⟩
  have hne : fs ≠ [] := by
    rintro rfl
    simp at hi
  have hsplit := Split_joinColon fs hne hfree
  have hget : (Split (joinColon fs)).get? i = some (HexName v) := by rw [hsplit]; exact hi
  rw [(chunkKeyUint64_field (joinColon fs) i (HexName v) hget).1 hlen
    (fun c hc => isHexDigit_of_lower c (hlow c hc)), hval]

set_option maxRecDepth 100000 in
theorem chunkKeyUint64_HexName_witness :
    (255 : Nat) < 2 ^ 64 ∧
    (∀ f ∈ [str "tbl", HexName 255, str "x"], colonFree f) ∧
    [str "tbl", HexName 255, str "x"].get? 1 = some (HexName 255) ∧
    joinColon [str "tbl", HexName 255, str "x"] = str "tbl:00000000000000ff:x" ∧
    chunkKeyUint64 (joinColon [str "tbl", HexName 255, str "x"]) ((1 : Nat) : Int)
      = some (255, true) :=
  ⟨by decide, by decide, by decide, by decide,
   (chunkKeyUint64_HexName 255 (by decide) [str "tbl", HexName 255, str "x"] 1
     (by decide) (by decide)).2.2.1⟩

end Fluxdb
